import Mathlib

set_option maxRecDepth 10000

/-!
Shallow embedding of the Connect Four core (`Connect4Board.py`, `Connect4Solver.py`).

Board cells are `Colour` values; the board is a 6-row by 7-column list of lists,
row 0 at the top, exactly as in the Python source.  Python methods that mutate
`self` in place are embedded as functions from a board to a new board; methods
that can raise return `Except String`.  The Python `raise` statements in the
translated code paths occur before any mutation, so an `Except.error` result
faithfully corresponds to the caller's board being left unchanged.

The main model indexes columns by `Nat`; it coincides with the Python code on
all in-range column indices (0..6), which are the only indices produced by the
game loop and the solver.  A second model (`Py` suffix) at the end of the
definitions reproduces exact Python list-indexing semantics (negative indices
wrap, out-of-range indices raise `IndexError`) and `collections.Counter`
semantics (missing keys read as 0); it is used for the claims about
out-of-range column indices.
-/

inductive Colour where
  | EMPTY
  | RED
  | YELLOW
deriving DecidableEq, Repr

/-- Board dimensions, `Connect4Board.ROWS`. -/
def ROWS : Nat := 6

/-- Board dimensions, `Connect4Board.COLUMNS`. -/
def COLUMNS : Nat := 7

/-- Horizontal four-in-a-row lines from `generate_winning_lines`. -/
def horizontal_lines : List (List (Nat × Nat)) :=
  (List.range ROWS).flatMap fun row =>
    (List.range (COLUMNS - 3)).map fun sc =>
      [(row, sc), (row, sc + 1), (row, sc + 2), (row, sc + 3)]

/-- Vertical four-in-a-row lines from `generate_winning_lines`. -/
def vertical_lines : List (List (Nat × Nat)) :=
  (List.range COLUMNS).flatMap fun col =>
    (List.range (ROWS - 3)).map fun sr =>
      [(sr, col), (sr + 1, col), (sr + 2, col), (sr + 3, col)]

/-- Falling-diagonal four-in-a-row lines from `generate_winning_lines`. -/
def diagonal_falling_lines : List (List (Nat × Nat)) :=
  (List.range (ROWS - 3)).flatMap fun sr =>
    (List.range (COLUMNS - 3)).map fun sc =>
      [(sr, sc), (sr + 1, sc + 1), (sr + 2, sc + 2), (sr + 3, sc + 3)]

/-- Rising-diagonal lines from `generate_winning_lines`.  The Python loop is
`for starting_row in range(4, Connect4Board.ROWS)`, i.e. starting rows 4 and 5
only. -/
def diagonal_rising_lines : List (List (Nat × Nat)) :=
  ((List.range ROWS).drop 4).flatMap fun sr =>
    (List.range (COLUMNS - 3)).map fun sc =>
      [(sr, sc), (sr - 1, sc + 1), (sr - 2, sc + 2), (sr - 3, sc + 3)]

/-- `Connect4Board.generate_winning_lines`. -/
def generate_winning_lines : List (List (Nat × Nat)) :=
  horizontal_lines ++ vertical_lines ++ diagonal_falling_lines ++ diagonal_rising_lines

/-- The once-per-process static table `Connect4Board.WINNING_LINES`. -/
def WINNING_LINES : List (List (Nat × Nat)) := generate_winning_lines

/-- `Connect4Board.generate_winning_lines_for_positions`: every stored winning
line containing the given cell, with that cell's own coordinate removed
(`list.remove` deletes the first occurrence, as `List.erase` does). -/
def generate_winning_lines_for_positions (row column : Nat) : List (List (Nat × Nat)) :=
  (WINNING_LINES.filter fun line => decide ((row, column) ∈ line)).map
    fun line => line.erase (row, column)

/-- The once-per-process static table `Connect4Board.WINNING_LINES_BY_POSITION`:
entry `[i][j]` is `generate_winning_lines_for_positions i j`. -/
def WINNING_LINES_BY_POSITION : List (List (List (List (Nat × Nat)))) :=
  (List.range ROWS).map fun i =>
    (List.range COLUMNS).map fun j => generate_winning_lines_for_positions i j

structure Connect4Board where
  moves_made : Nat
  last_move : Int × Int
  winner : Colour
  board : List (List Colour)
  column_chip_count : List Nat
  available_moves : List Bool
deriving DecidableEq, Repr

/-- `Connect4Board.__init__` with all five data arguments supplied: `winner` is
unconditionally set to `EMPTY`; everything else is stored as given. -/
def boardInit (moves_made : Nat) (last_move : Int × Int) (board : List (List Colour))
    (column_chip_count : List Nat) (available_moves : List Bool) : Connect4Board :=
  { moves_made := moves_made, last_move := last_move, winner := Colour.EMPTY,
    board := board, column_chip_count := column_chip_count,
    available_moves := available_moves }

/-- `Connect4Board()` with the constructor's default arguments: the empty board. -/
def emptyBoard : Connect4Board :=
  boardInit 0 (-1, -1)
    (List.replicate ROWS (List.replicate COLUMNS Colour.EMPTY))
    (List.replicate COLUMNS 0)
    (List.replicate COLUMNS true)

/-- `Connect4Board.__deepcopy__`: rebuilds the board through `__init__` from
copies of the five data components, so the copy's `winner` is reset to `EMPTY`. -/
def deepcopy (b : Connect4Board) : Connect4Board :=
  boardInit b.moves_made b.last_move b.board b.column_chip_count b.available_moves

/-- `Connect4Board.move_available`: reads `available_moves[column]`.  The
default value is never used on the in-range indices the program passes. -/
def move_available (b : Connect4Board) (column : Nat) : Bool :=
  b.available_moves.getD column false

/-- `Connect4Board.get_colour_at_position`: reads `board[row][column]`. -/
def get_colour_at_position (b : Connect4Board) (row column : Nat) : Colour :=
  (b.board.getD row []).getD column Colour.EMPTY

/-- Colour of the cell at a coordinate pair, `board[q[0]][q[1]]`. -/
def coordColour (b : Connect4Board) (q : Nat × Nat) : Colour :=
  get_colour_at_position b q.1 q.2

/-- The assignment `board[row][column] = colour` inside `place_chip`. -/
def set_cell (b : Connect4Board) (row column : Nat) (colour : Colour) : Connect4Board :=
  { b with board := b.board.set row ((b.board.getD row []).set column colour) }

/-- `Connect4Board.__update_column_availability`: increments the chip count of
the column and closes the column when the count reaches `ROWS`. -/
def update_column_availability (b : Connect4Board) (column : Nat) : Connect4Board :=
  let b' := { b with column_chip_count :=
      b.column_chip_count.set column (b.column_chip_count.getD column 0 + 1) }
  if b'.column_chip_count.getD column 0 = ROWS then
    { b' with available_moves := b'.available_moves.set column false }
  else b'

/-- The test `board[line[0][0]][line[0][1]] == c and ... line[1] ... line[2]`
performed by `check_winner_from_last_move` on one indexed (3-coordinate) line. -/
def line_matches_colour (b : Connect4Board) (c : Colour) (line : List (Nat × Nat)) : Bool :=
  decide (coordColour b (line.getD 0 (0, 0)) = c) &&
  decide (coordColour b (line.getD 1 (0, 0)) = c) &&
  decide (coordColour b (line.getD 2 (0, 0)) = c)

/-- `Connect4Board.check_winner_from_last_move`: examines only the winning
lines indexed to the last-move cell.  The program only ever calls this with
`last_move` equal to the sentinel `(-1, -1)` or to in-range coordinates set by
`place_chip`, where the `getD`/`toNat` conversions below agree with the Python
table lookup `winning_lines_by_positions[last_row][last_col]`. -/
def check_winner_from_last_move (b : Connect4Board) : Colour :=
  if b.last_move = (-1, -1) then Colour.EMPTY
  else
    let last_row := b.last_move.1.toNat
    let last_col := b.last_move.2.toNat
    let last_move_colour := get_colour_at_position b last_row last_col
    if ((WINNING_LINES_BY_POSITION.getD last_row []).getD last_col []).any
        (line_matches_colour b last_move_colour) then
      last_move_colour
    else Colour.EMPTY

/-- The test on one full (4-coordinate) line performed by
`check_winner_from_board`: first cell non-empty and all four cells equal. -/
def line_complete (b : Connect4Board) (line : List (Nat × Nat)) : Bool :=
  decide (coordColour b (line.getD 0 (0, 0)) ≠ Colour.EMPTY) &&
  decide (coordColour b (line.getD 0 (0, 0)) = coordColour b (line.getD 1 (0, 0))) &&
  decide (coordColour b (line.getD 1 (0, 0)) = coordColour b (line.getD 2 (0, 0))) &&
  decide (coordColour b (line.getD 2 (0, 0)) = coordColour b (line.getD 3 (0, 0)))

/-- `Connect4Board.check_winner_from_board`: full scan of all stored winning
lines, returning the colour of the first complete line, else `EMPTY`. -/
def check_winner_from_board (b : Connect4Board) : Colour :=
  match WINNING_LINES.find? (line_complete b) with
  | some line => coordColour b (line.getD 0 (0, 0))
  | none => Colour.EMPTY

/-- `Connect4Board.place_chip`: computes the destination row, raises on a full
column, otherwise writes the chip, updates the column count/availability,
increments `moves_made`, records `last_move` and recomputes `winner` with the
incremental check. -/
def place_chip (b : Connect4Board) (player : Colour) (column : Nat) :
    Except String Connect4Board :=
  let row_placed_at : Int :=
    (ROWS : Int) - (b.column_chip_count.getD column 0 : Int) - 1
  if row_placed_at < 0 then
    .error ("Tried to place chip in full column " ++ toString column)
  else
    let b1 := set_cell b row_placed_at.toNat column player
    let b2 := update_column_availability b1 column
    let b3 := { b2 with moves_made := b2.moves_made + 1,
                        last_move := (row_placed_at, (column : Int)) }
    .ok { b3 with winner := check_winner_from_last_move b3 }

/-- `Connect4Board.still_playing`. -/
def still_playing (b : Connect4Board) : Bool :=
  !(b.winner ≠ Colour.EMPTY || b.moves_made == ROWS * COLUMNS)

/-- Convenience for building concrete example positions: the board produced by
a successful `place_chip`, or the input board unchanged if the call failed. -/
def placeD (b : Connect4Board) (p : Colour) (c : Nat) : Connect4Board :=
  match place_chip b p c with
  | .ok b' => b'
  | .error _ => b

/-- A board built from the empty board by a sequence of `place_chip` calls. -/
def seqBoard (ms : List (Colour × Nat)) : Connect4Board :=
  ms.foldl (fun b m => placeD b m.1 m.2) emptyBoard

deriving instance DecidableEq for Except

/-- `Connect4Solver.__alternate_colour`. -/
def alternate_colour (initial_colour : Colour) : Colour :=
  if initial_colour = Colour.RED then Colour.YELLOW else Colour.RED

/-- `Connect4Solver.__player_value`: 1 for RED, -1 otherwise. -/
def player_value (player : Colour) : Int :=
  if player = Colour.RED then 1 else -1

/-- `Connect4Solver.DEPTH`. -/
def DEPTH : Nat := 5

/-- The `while col < Board.COLUMNS` loop of `Connect4Solver.solveNaive`,
with the columns still to visit given as an explicit list (the loop, starting
at `col = 0`, visits columns 0, 1, ..., 6 in this order). -/
def solveNaiveLoop (game : Connect4Board) (player : Colour) :
    List Nat → Except String Int
  | [] => .ok (-1)
  | col :: rest =>
    if move_available game col then
      match place_chip (deepcopy game) player col with
      | .error e => .error e
      | .ok new_board =>
        if new_board.winner ≠ Colour.EMPTY then .ok (col : Int)
        else solveNaiveLoop game player rest
    else solveNaiveLoop game player rest

/-- `Connect4Solver.solveNaive`: first column (ascending) whose hypothetical
placement wins immediately, else -1. -/
def solveNaive (game : Connect4Board) (player : Colour) : Except String Int :=
  solveNaiveLoop game player (List.range COLUMNS)

/-- Values held in the list returned by `solve_minimax`: the recursion produces
integers, and unavailable columns get `-inf * player_value` (numpy infinities). -/
inductive MinimaxValue where
  | negInf
  | posInf
  | val (v : Int)
deriving DecidableEq, Repr

/-- The numpy expression `-inf * player_value` for `player_value` in {1, -1}. -/
def neg_inf_times (player_value : Int) : MinimaxValue :=
  if player_value = 1 then .negInf else .posInf

/-- The `max(values)`/`min(values)` taken at the end of the child loop of
`Connect4Solver.place_chip_recursive`: 0 on no children, otherwise max for the
maximizing colour and min for the minimizing colour.  The source falls through
both `if`s only when `player_value` is neither 1 nor -1, which cannot happen. -/
def pcr_result (values : List Int) (player : Colour) : Except String Int :=
  if values.isEmpty then .ok 0
  else if player_value player = 1 then .ok (values.foldl max (values.headD 0))
  else .ok (values.foldl min (values.headD 0))

/-- The `while (col < Board.COLUMNS and game.move_available(col))` loop of
`Connect4Solver.place_chip_recursive`, with its accumulated `values` list.
The columns still to visit are an explicit list (starting from columns
0, 1, ..., 6); note the loop condition: iteration stops at the first
unavailable column.  The leading `Nat` argument is pure recursion fuel, only
there to make the nested recursion structural; every call chain of the
program (column advances plus depth descents, at most 8 per ply for at most
5 plies) is far shorter than the fuel supplied below, so the out-of-fuel
branch is never taken on the program's inputs. -/
def pcrFuel : Nat → Connect4Board → Colour → Nat → List Nat → List Int →
    Except String Int
  | 0, _, _, _, _, _ => .error "out of fuel"
  | _ + 1, _, player, _, [], values => pcr_result values player
  | fuel + 1, game, player, depth, col :: rest, values =>
    if move_available game col then
      match place_chip (deepcopy game) player col with
      | .error e => .error e
      | .ok new_board =>
        let winner := new_board.winner
        let res : Except String Int :=
          if winner = Colour.EMPTY ∧ 1 < depth then
            pcrFuel fuel new_board (alternate_colour player) (depth - 1)
              (List.range COLUMNS) []
          else
            .ok (if winner = Colour.EMPTY then 0 else player_value winner)
        match res with
        | .error e => .error e
        | .ok value =>
          if value = player_value player then .ok value
          else pcrFuel fuel game player depth rest (values ++ [value])
    else pcr_result values player

/-- `Connect4Solver.place_chip_recursive`: depth-first minimax valuation of a
position, player to move, with the early-return pruning of the source. -/
def place_chip_recursive (game : Connect4Board) (player : Colour) (depth : Nat) :
    Except String Int :=
  pcrFuel 1000 game player depth (List.range COLUMNS) []

/-- The `for col in range(Board.COLUMNS)` loop of
`Connect4Solver.solve_minimax`, over the explicit column list 0, 1, ..., 6. -/
def smLoop (game : Connect4Board) (player : Colour) (depth : Nat) :
    List Nat → List MinimaxValue → Except String (List MinimaxValue)
  | [], acc => .ok acc
  | col :: rest, acc =>
    if move_available game col = false then
      smLoop game player depth rest (acc ++ [neg_inf_times (player_value player)])
    else
      match place_chip (deepcopy game) player col with
      | .error e => .error e
      | .ok new_board =>
        match place_chip_recursive new_board (alternate_colour player) depth with
        | .error e => .error e
        | .ok value => smLoop game player depth rest (acc ++ [.val value])

/-- `Connect4Solver.solve_minimax`: per-column minimax values; an unavailable
column gets `-inf * player_value`. -/
def solve_minimax (game : Connect4Board) (player : Colour) (depth : Nat) :
    Except String (List MinimaxValue) :=
  smLoop game player depth (List.range COLUMNS) []

/-- Boards reachable from the empty board by legal placements: an in-range
column and a player chip, where the `place_chip` call succeeded. -/
inductive Reachable : Connect4Board → Prop where
  | empty : Reachable emptyBoard
  | step {b b' : Connect4Board} {p : Colour} {c : Nat} :
      Reachable b → p ≠ Colour.EMPTY → c < COLUMNS →
      place_chip b p c = .ok b' → Reachable b'

/-- Boards reachable from the empty board by legal placements each made while
the board had no recorded winner (the boards that arise in an actual game,
where the caller stops as soon as `still_playing` is false). -/
inductive ReachableNoWin : Connect4Board → Prop where
  | empty : ReachableNoWin emptyBoard
  | step {b b' : Connect4Board} {p : Colour} {c : Nat} :
      ReachableNoWin b → b.winner = Colour.EMPTY → p ≠ Colour.EMPTY → c < COLUMNS →
      place_chip b p c = .ok b' → ReachableNoWin b'

/-!
Python-exact indexing model, used for the claims about out-of-range column
indices.  `pyIdx` is CPython list-index resolution: non-negative indices must
be below the length, negative indices count from the end and must not go past
the front; anything else raises `IndexError`.  The chip counter is modelled as
the `collections.Counter` insertion-ordered dictionary: reading a missing key
yields 0, writing `c[k] += 1` creates the key at the end.
-/

def pyIdx (len : Nat) (i : Int) : Option Nat :=
  if 0 ≤ i then (if i < (len : Int) then some i.toNat else none)
  else (if -i ≤ (len : Int) then some (len - (-i).toNat) else none)

def pyGet {α : Type} (l : List α) (i : Int) : Option α :=
  match pyIdx l.length i with
  | some j => l.get? j
  | none => none

def pySet {α : Type} (l : List α) (i : Int) (a : α) : Option (List α) :=
  match pyIdx l.length i with
  | some j => some (l.set j a)
  | none => none

def counterGet (c : List (Int × Nat)) (k : Int) : Nat :=
  match c.find? (fun kv => kv.1 == k) with
  | some kv => kv.2
  | none => 0

def counterSet (c : List (Int × Nat)) (k : Int) (v : Nat) : List (Int × Nat) :=
  if c.any (fun kv => kv.1 == k) then
    c.map (fun kv => if kv.1 == k then (kv.1, v) else kv)
  else c ++ [(k, v)]

structure Connect4BoardPy where
  moves_made : Nat
  last_move : Int × Int
  winner : Colour
  board : List (List Colour)
  column_chip_count : List (Int × Nat)
  available_moves : List Bool
deriving DecidableEq, Repr

/-- `Connect4Board()` in the Python-exact model: counter keys 0..6 all zero. -/
def emptyBoardPy : Connect4BoardPy :=
  { moves_made := 0, last_move := (-1, -1), winner := Colour.EMPTY,
    board := List.replicate ROWS (List.replicate COLUMNS Colour.EMPTY),
    column_chip_count := (List.range COLUMNS).map fun c => ((c : Int), 0),
    available_moves := List.replicate COLUMNS true }

/-- `Connect4Board.move_available` with exact Python list indexing: the read
`available_moves[column]` wraps negative indices and raises `IndexError`
(modelled as `Except.error`) when out of range. -/
def move_availablePy (b : Connect4BoardPy) (column : Int) : Except String Bool :=
  match pyGet b.available_moves column with
  | some v => .ok v
  | none => .error "IndexError"

/-- The read `board[row][col]` with exact Python indexing. -/
def get_colour_at_positionPy (b : Connect4BoardPy) (row col : Int) :
    Except String Colour :=
  match pyGet b.board row with
  | none => .error "IndexError"
  | some r =>
    match pyGet r col with
    | none => .error "IndexError"
    | some c => .ok c

/-- The assignment `board[row][col] = colour` with exact Python indexing. -/
def set_cellPy (b : Connect4BoardPy) (row col : Int) (colour : Colour) :
    Except String Connect4BoardPy :=
  match pyGet b.board row with
  | none => .error "IndexError"
  | some r =>
    match pySet r col colour with
    | none => .error "IndexError"
    | some r' =>
      match pySet b.board row r' with
      | some bd => .ok { b with board := bd }
      | none => .error "IndexError"

/-- `Connect4Board.__update_column_availability` in the Python-exact model.
On every path on which `place_chip` reaches this call, the column index lies
in the wrap range of the length-7 `available_moves` list, so the error branch
below (and hence any question of partial mutation before a raise) is
unreachable. -/
def update_column_availabilityPy (b : Connect4BoardPy) (column : Int) :
    Except String Connect4BoardPy :=
  let cnt := counterGet b.column_chip_count column + 1
  let b' := { b with column_chip_count := counterSet b.column_chip_count column cnt }
  if cnt = ROWS then
    match pySet b'.available_moves column false with
    | some av => .ok { b' with available_moves := av }
    | none => .error "IndexError"
  else .ok b'

/-- One indexed-line test of `check_winner_from_last_move`, with Python-exact
cell reads threaded through `Except`. -/
def line_matches_colourPy (b : Connect4BoardPy) (c : Colour)
    (line : List (Nat × Nat)) : Except String Bool :=
  match get_colour_at_positionPy b (line.getD 0 (0, 0)).1 (line.getD 0 (0, 0)).2 with
  | .error e => .error e
  | .ok c0 =>
    if c0 ≠ c then .ok false
    else
      match get_colour_at_positionPy b (line.getD 1 (0, 0)).1 (line.getD 1 (0, 0)).2 with
      | .error e => .error e
      | .ok c1 =>
        if c1 ≠ c then .ok false
        else
          match get_colour_at_positionPy b (line.getD 2 (0, 0)).1 (line.getD 2 (0, 0)).2 with
          | .error e => .error e
          | .ok c2 => .ok (c2 = c)

/-- The `for line in ...` search of `check_winner_from_last_move`, returning at
the first matching line. -/
def findMatchPy (b : Connect4BoardPy) (c : Colour) :
    List (List (Nat × Nat)) → Except String Bool
  | [] => .ok false
  | l :: ls =>
    match line_matches_colourPy b c l with
    | .error e => .error e
    | .ok true => .ok true
    | .ok false => findMatchPy b c ls

/-- `Connect4Board.check_winner_from_last_move` in the Python-exact model: the
lookups `board[last_row][last_col]` and
`winning_lines_by_positions[last_row][last_col]` use Python indexing, so a
negative recorded column wraps. -/
def check_winner_from_last_movePy (b : Connect4BoardPy) : Except String Colour :=
  if b.last_move = (-1, -1) then .ok Colour.EMPTY
  else
    let last_row := b.last_move.1
    let last_col := b.last_move.2
    match get_colour_at_positionPy b last_row last_col with
    | .error e => .error e
    | .ok last_move_colour =>
      match pyGet WINNING_LINES_BY_POSITION last_row with
      | none => .error "IndexError"
      | some rowLines =>
        match pyGet rowLines last_col with
        | none => .error "IndexError"
        | some lines =>
          match findMatchPy b last_move_colour lines with
          | .error e => .error e
          | .ok true => .ok last_move_colour
          | .ok false => .ok Colour.EMPTY

/-- `Connect4Board.place_chip` in the Python-exact model.  The full-column
check happens before anything else; the first state touched afterwards is the
grid write `board[row_placed_at][column] = player`, whose failure (column
out of the wrap range) raises before any mutation has occurred. -/
def place_chipPy (b : Connect4BoardPy) (player : Colour) (column : Int) :
    Except String Connect4BoardPy :=
  let row_placed_at : Int :=
    (ROWS : Int) - (counterGet b.column_chip_count column : Int) - 1
  if row_placed_at < 0 then
    .error ("Tried to place chip in full column " ++ toString column)
  else
    match set_cellPy b row_placed_at column player with
    | .error e => .error e
    | .ok b1 =>
      match update_column_availabilityPy b1 column with
      | .error e => .error e
      | .ok b2 =>
        let b3 := { b2 with moves_made := b2.moves_made + 1,
                            last_move := (row_placed_at, column) }
        match check_winner_from_last_movePy b3 with
        | .error e => .error e
        | .ok w => .ok { b3 with winner := w }

/-- The board produced by `place_chipPy` when it succeeds, for stating concrete
results; the input board when it fails. -/
def placeDPy (b : Connect4BoardPy) (p : Colour) (c : Int) : Connect4BoardPy :=
  match place_chipPy b p c with
  | .ok b' => b'
  | .error _ => b

/-!
Derived notions used to state the claims.
-/

/-- Row that `place_chip` writes to, as a natural number:
`ROWS - column_chip_count[column] - 1`. -/
def place_row (b : Connect4Board) (c : Nat) : Nat :=
  ROWS - 1 - b.column_chip_count.getD c 0

/-- Well-formed dimensions: 6 rows of 7 cells, 7 column counters, 7
availability flags.  Holds for every reachable board. -/
def dimsOK (b : Connect4Board) : Prop :=
  b.board.length = ROWS ∧ (∀ row ∈ b.board, row.length = COLUMNS) ∧
  b.column_chip_count.length = COLUMNS ∧ b.available_moves.length = COLUMNS

/-- The bookkeeping invariant of the spec: `moves_made` is the sum of the
column counts, every count is at most `ROWS`, and a column is open exactly
when its count is below `ROWS`. -/
def boardInv (b : Connect4Board) : Prop :=
  b.moves_made = b.column_chip_count.sum ∧
  (∀ c, c < COLUMNS → b.column_chip_count.getD c 0 ≤ ROWS) ∧
  (∀ c, c < COLUMNS → (move_available b c = true ↔ b.column_chip_count.getD c 0 < ROWS))

/-- Every open column can actually be placed into (no full column is marked
open).  This is the part of `boardInv` that `solveNaive` needs in order not to
raise. -/
def open_columns_placeable (b : Connect4Board) : Prop :=
  ∀ c, c < COLUMNS → move_available b c = true → b.column_chip_count.getD c 0 < ROWS

/-- The hypothetical-win test performed by `solveNaive` for one column: clone
the board, place the chip, and look at the recomputed `winner`. -/
def wins_immediately (b : Connect4Board) (p : Colour) (c : Nat) : Bool :=
  match place_chip (deepcopy b) p c with
  | .ok nb => decide (nb.winner ≠ Colour.EMPTY)
  | .error _ => false

/-- Checks that a move list is a sequence of legal placements starting from
`b`: player chip, in-range column, successful `place_chip` at every step. -/
def legalFrom : Connect4Board → List (Colour × Nat) → Bool
  | _, [] => true
  | b, m :: ms =>
    (decide (m.1 ≠ Colour.EMPTY) && decide (m.2 < COLUMNS) &&
      (place_chip b m.1 m.2).isOk) && legalFrom (placeD b m.1 m.2) ms

/-- Like `legalFrom`, additionally requiring that every placement is made
while the board has no recorded winner. -/
def legalFromNW : Connect4Board → List (Colour × Nat) → Bool
  | _, [] => true
  | b, m :: ms =>
    (decide (b.winner = Colour.EMPTY) && decide (m.1 ≠ Colour.EMPTY) &&
      decide (m.2 < COLUMNS) && (place_chip b m.1 m.2).isOk) &&
      legalFromNW (placeD b m.1 m.2) ms

/-!
Concrete positions used by the counterexamples, the code-bug evaluations and
the witnesses.
-/

/-- RED already played columns 0, 1, 2 (bottom row), YELLOW stacked column 6;
RED's next placement at column 3 completes the bottom-row line. -/
def wonBoard : Connect4Board :=
  seqBoard [(Colour.RED, 0), (Colour.YELLOW, 6), (Colour.RED, 1), (Colour.YELLOW, 6),
            (Colour.RED, 2), (Colour.YELLOW, 6), (Colour.RED, 3)]

/-- One more legal placement after `wonBoard` (YELLOW at column 5). -/
def afterWinBoard : Connect4Board :=
  placeD wonBoard Colour.YELLOW 5

/-- A different post-win continuation, for the incremental-vs-full-scan
disagreement (YELLOW at column 4 after `wonBoard`). -/
def disagreeBoard : Connect4Board :=
  placeD wonBoard Colour.YELLOW 4

/-- RED on (5,0), (5,1), (5,2); YELLOW on (4,0), (4,1); RED to move wins
immediately at column 3. -/
def minimaxWinBoard : Connect4Board :=
  seqBoard [(Colour.RED, 0), (Colour.YELLOW, 0), (Colour.RED, 1), (Colour.YELLOW, 1),
            (Colour.RED, 2)]

/-- Column 0 stacked full (alternating, no winner), RED three in a row on the
bottom at columns 1, 2, 3; column 4 is an open immediately-winning column for
RED, but it sits beyond the full column 0. -/
def fullColBoard : Connect4Board :=
  seqBoard [(Colour.YELLOW, 0), (Colour.RED, 0), (Colour.YELLOW, 0), (Colour.RED, 0),
            (Colour.YELLOW, 0), (Colour.RED, 0), (Colour.RED, 1), (Colour.RED, 2),
            (Colour.RED, 3)]

/-- Three RED chips horizontally adjacent at columns 2, 3, 4 of the bottom row
of an otherwise empty board; the completing columns are 1 and 5. -/
def threeRowBoard : Connect4Board :=
  seqBoard [(Colour.RED, 2), (Colour.RED, 3), (Colour.RED, 4)]

/-- The board `place_chipPy` actually produces for column -1 from the empty
board: the chip lands in column 6 by Python negative indexing. -/
def c6Result : Connect4BoardPy :=
  placeDPy emptyBoardPy Colour.RED (-1)

/-!
List helper lemmas.
-/

theorem getD_set_self {α : Type} {l : List α} {i : Nat} (h : i < l.length) (a d : α) :
    (l.set i a).getD i d = a := by
  induction l generalizing i with
  | nil => simp at h
  | cons x xs ih =>
    cases i with
    | zero => simp
    | succ n => simpa using ih (by simpa using h) 

theorem getD_set_ne {α : Type} {l : List α} {i j : Nat} (h : i ≠ j) (a : α) (d : α) :
    (l.set i a).getD j d = l.getD j d := by
  induction l generalizing i j with
  | nil => simp
  | cons x xs ih =>
    cases i with
    | zero =>
      cases j with
      | zero => exact absurd rfl h
      | succ m => simp
    | succ n =>
      cases j with
      | zero => simp
      | succ m => simpa using ih (by omega) 

theorem sum_set_add {l : List Nat} {i : Nat} (h : i < l.length) (a : Nat) :
    (l.set i a).sum + l.getD i 0 = l.sum + a := by
  induction l generalizing i with
  | nil => simp at h
  | cons x xs ih =>
    cases i with
    | zero => simp [Nat.add_comm, Nat.add_left_comm]
    | succ n =>
      have := @ih n (by simpa using h)
      simp only [List.set, List.sum_cons, List.getD_cons_succ]
      omega

theorem list_len3 {α : Type} {l : List α} (h : l.length = 3) : ∃ a b c, l = [a, b, c] := by
  match l, h with
  | [a, b, c], _ => exact ⟨a, b, c, rfl⟩

theorem list_len4 {α : Type} {l : List α} (h : l.length = 4) : ∃ a b c d, l = [a, b, c, d] := by
  match l, h with
  | [a, b, c, d], _ => exact ⟨a, b, c, d, rfl⟩

theorem getD_mem {α : Type} {l : List α} {i : Nat} (h : i < l.length) (d : α) :
    l.getD i d ∈ l := by
  rw [List.getD_eq_getElem l d h]
  exact List.getElem_mem h

/-!
Facts about the concrete line geometry, all verified by evaluation.
-/

/-- Every stored line has exactly 4 pairwise distinct coordinates, all inside
the 6-row by 7-column grid. -/
theorem winning_lines_wf :
    ∀ l ∈ WINNING_LINES, l.length = 4 ∧ l.Nodup ∧ ∀ q ∈ l, q.1 < ROWS ∧ q.2 < COLUMNS := by
  decide

/-- The static per-cell table agrees with the generating function on all 42
cells of the grid. -/
theorem table_lookup :
    ∀ r, r < ROWS → ∀ c, c < COLUMNS →
      (WINNING_LINES_BY_POSITION.getD r []).getD c [] =
        generate_winning_lines_for_positions r c := by
  decide

theorem check_winner_winner_irrel (b : Connect4Board) (w : Colour) :
    check_winner_from_last_move { b with winner := w } = check_winner_from_last_move b := rfl

theorem place_chip_eq_error {b : Connect4Board} {p : Colour} {c : Nat}
    (h : ROWS ≤ b.column_chip_count.getD c 0) :
    place_chip b p c = .error ("Tried to place chip in full column " ++ toString c) := by
  simp only [place_chip]
  rw [if_pos (by omega)]

theorem place_chip_isOk_of_lt {b : Connect4Board} {p : Colour} {c : Nat}
    (h : b.column_chip_count.getD c 0 < ROWS) :
    (place_chip b p c).isOk = true := by
  simp only [place_chip]
  rw [if_neg (by omega)]
  rfl

theorem place_chip_ok_fields {b b' : Connect4Board} {p : Colour} {c : Nat}
    (hlen : b.column_chip_count.length = COLUMNS) (hc : c < COLUMNS)
    (h : place_chip b p c = .ok b') :
    b.column_chip_count.getD c 0 < ROWS ∧
    b'.moves_made = b.moves_made + 1 ∧
    b'.last_move = (((place_row b c : Nat) : Int), (c : Int)) ∧
    b'.winner = check_winner_from_last_move b' ∧
    b'.board = b.board.set (place_row b c) ((b.board.getD (place_row b c) []).set c p) ∧
    b'.column_chip_count = b.column_chip_count.set c (b.column_chip_count.getD c 0 + 1) ∧
    b'.available_moves = (if b.column_chip_count.getD c 0 + 1 = ROWS
      then b.available_moves.set c false else b.available_moves) := by
  by_cases hlt : b.column_chip_count.getD c 0 < ROWS
  · simp only [place_chip] at h
    rw [if_neg (by omega)] at h
    have hrow : ((ROWS : Int) - (b.column_chip_count.getD c 0 : Int) - 1).toNat
        = place_row b c := by
      unfold place_row ROWS at hlt ⊢
      omega
    have h1 : (ROWS : Int) - (b.column_chip_count.getD c 0 : Int) - 1
        = ((place_row b c : Nat) : Int) := by
      unfold place_row ROWS at hlt ⊢
      omega
    obtain rfl := Except.ok.inj h
    have hgetset : (b.column_chip_count.set c (b.column_chip_count.getD c 0 + 1)).getD c 0
        = b.column_chip_count.getD c 0 + 1 := getD_set_self (by omega) _ _
    refine ⟨hlt, ?_, ?_, ?_, ?_, ?_, ?_⟩
    · simp only [update_column_availability, set_cell]
      split <;> rfl
    · exact congrArg (fun r => (r, (c : Int))) h1
    · rfl
    · simp only [update_column_availability, set_cell, hrow]
      split <;> rfl
    · simp only [update_column_availability, set_cell]
      split <;> rfl
    · simp only [update_column_availability, set_cell, hgetset]
      split <;> simp_all
  · rw [place_chip_eq_error (by omega)] at h
    cases h

theorem dimsOK_place {b b' : Connect4Board} {p : Colour} {c : Nat}
    (hd : dimsOK b) (hc : c < COLUMNS) (h : place_chip b p c = .ok b') : dimsOK b' := by
  obtain ⟨hb, hrows, hcc, hav⟩ := hd
  obtain ⟨hlt, -, -, -, hboard, hcount, havail⟩ := place_chip_ok_fields hcc hc h
  refine ⟨?_, ?_, ?_, ?_⟩
  · rw [hboard]; simp [hb]
  · rw [hboard]
    intro row hrow
    rcases List.mem_or_eq_of_mem_set hrow with h1 | h1
    · exact hrows _ h1
    · subst h1
      rw [List.length_set]
      have hpr : place_row b c < b.board.length := by
        rw [hb]; unfold place_row ROWS; omega
      exact hrows _ (getD_mem hpr _)
  · rw [hcount]; simp [hcc]
  · rw [havail]; split <;> simp [hav]

theorem reachable_dimsOK {b : Connect4Board} (h : Reachable b) : dimsOK b := by
  induction h with
  | empty => unfold dimsOK; decide
  | step rb hp hc hok ih => exact dimsOK_place ih hc hok

theorem boardInv_place {b b' : Connect4Board} {p : Colour} {c : Nat}
    (hd : dimsOK b) (hinv : boardInv b) (hc : c < COLUMNS)
    (h : place_chip b p c = .ok b') : boardInv b' := by
  obtain ⟨hmoves, hle, hiff⟩ := hinv
  obtain ⟨hb, hrows, hcc, hav⟩ := hd
  obtain ⟨hlt, hm, -, -, -, hcount, havail⟩ := place_chip_ok_fields hcc hc h
  have hclen : c < b.column_chip_count.length := by omega
  refine ⟨?_, ?_, ?_⟩
  · rw [hm, hcount, hmoves]
    have := @sum_set_add b.column_chip_count c hclen
      (b.column_chip_count.getD c 0 + 1)
    omega
  · intro c' hc'
    rw [hcount]
    by_cases hcc' : c' = c
    · subst hcc'
      rw [getD_set_self hclen]
      unfold ROWS at hlt ⊢
      omega
    · rw [getD_set_ne (fun hx => hcc' hx.symm)]
      exact hle c' hc'
  · intro c' hc'
    unfold move_available
    rw [havail, hcount]
    by_cases hcc' : c' = c
    · subst hcc'
      rw [getD_set_self hclen]
      split
      · rename_i hfull
        rw [getD_set_self (by omega)]
        simp only [Bool.false_eq_true, false_iff]
        omega
      · rename_i hnfull
        have : move_available b c' = true := (hiff c' hc').mpr hlt
        unfold move_available at this
        rw [this]
        simp only [true_iff]
        unfold ROWS at hlt hnfull ⊢
        omega
    · rw [getD_set_ne (fun hx => hcc' hx.symm)]
      have hsame : (if b.column_chip_count.getD c 0 + 1 = ROWS
          then b.available_moves.set c false else b.available_moves).getD c' false
          = b.available_moves.getD c' false := by
        split
        · exact getD_set_ne (fun hx => hcc' hx.symm) _ _
        · rfl
      rw [hsame]
      exact hiff c' hc'

theorem reachable_boardInv {b : Connect4Board} (h : Reachable b) : boardInv b := by
  induction h with
  | empty => unfold boardInv move_available; decide
  | step rb hp hc hok ih => exact boardInv_place (reachable_dimsOK rb) ih hc hok

theorem coordColour_place_self {b b' : Connect4Board} {p : Colour} {c : Nat}
    (hd : dimsOK b) (hc : c < COLUMNS) (h : place_chip b p c = .ok b') :
    coordColour b' (place_row b c, c) = p := by
  obtain ⟨hb, hrows, hcc, hav⟩ := hd
  obtain ⟨hlt, -, -, -, hboard, -, -⟩ := place_chip_ok_fields hcc hc h
  have hpr : place_row b c < b.board.length := by
    rw [hb]; unfold place_row ROWS; omega
  have hrowlen : (b.board.getD (place_row b c) []).length = COLUMNS :=
    hrows _ (getD_mem hpr _)
  unfold coordColour get_colour_at_position
  rw [hboard]
  simp only []
  rw [getD_set_self hpr, getD_set_self (by omega)]

theorem coordColour_place_ne {b b' : Connect4Board} {p : Colour} {c : Nat}
    (hd : dimsOK b) (hc : c < COLUMNS) (h : place_chip b p c = .ok b')
    {q : Nat × Nat} (hq : q ≠ (place_row b c, c)) :
    coordColour b' q = coordColour b q := by
  obtain ⟨hb, hrows, hcc, hav⟩ := hd
  obtain ⟨hlt, -, -, -, hboard, -, -⟩ := place_chip_ok_fields hcc hc h
  unfold coordColour get_colour_at_position
  rw [hboard]
  by_cases h1 : q.1 = place_row b c
  · have h2 : q.2 ≠ c := by
      intro h2
      exact hq (Prod.ext h1 h2)
    rw [h1, getD_set_self (by rw [hb]; unfold place_row ROWS; omega)]
    exact getD_set_ne (fun hx => h2 hx.symm) _ _
  · rw [getD_set_ne (fun hx => h1 hx.symm)]

theorem line_complete_iff {b : Connect4Board} {l : List (Nat × Nat)} (h4 : l.length = 4) :
    line_complete b l = true ↔
      (coordColour b (l.getD 0 (0, 0)) ≠ Colour.EMPTY ∧
        ∀ q ∈ l, coordColour b q = coordColour b (l.getD 0 (0, 0))) := by
  obtain ⟨a, x, y, z, rfl⟩ := list_len4 h4
  simp only [line_complete, Bool.and_eq_true, decide_eq_true_eq, List.getD_cons_zero,
    List.getD_cons_succ, List.mem_cons, List.not_mem_nil, or_false, forall_eq_or_imp,
    forall_eq, true_and]
  constructor
  · intro h
    obtain ⟨⟨⟨h0, h1⟩, h2⟩, h3⟩ := h
    simp_all
  · intro h
    simp_all

theorem line_matches_iff {b : Connect4Board} {col : Colour} {l : List (Nat × Nat)}
    (h3 : l.length = 3) :
    line_matches_colour b col l = true ↔ ∀ q ∈ l, coordColour b q = col := by
  obtain ⟨a, x, y, rfl⟩ := list_len3 h3
  simp [line_matches_colour, and_assoc]

theorem line_complete_congr {b b' : Connect4Board} {l : List (Nat × Nat)} (h4 : l.length = 4)
    (hsame : ∀ q ∈ l, coordColour b' q = coordColour b q) :
    line_complete b' l = line_complete b l := by
  obtain ⟨a, x, y, z, rfl⟩ := list_len4 h4
  simp only [List.mem_cons, List.not_mem_nil, or_false, forall_eq_or_imp, forall_eq] at hsame
  obtain ⟨ha, hx, hy, hz⟩ := hsame
  simp [line_complete, ha, hx, hy, hz]

theorem mem_lines_for_positions {r c : Nat} {l' : List (Nat × Nat)} :
    l' ∈ generate_winning_lines_for_positions r c ↔
      ∃ l ∈ WINNING_LINES, (r, c) ∈ l ∧ l' = l.erase (r, c) := by
  unfold generate_winning_lines_for_positions
  simp only [List.mem_map, List.mem_filter, decide_eq_true_eq]
  constructor
  · rintro ⟨l, ⟨hm, hin⟩, rfl⟩
    exact ⟨l, hm, hin, rfl⟩
  · rintro ⟨l, hm, hin, rfl⟩
    exact ⟨l, ⟨hm, hin⟩, rfl⟩

theorem place_row_lt {b : Connect4Board} {c : Nat} : place_row b c < ROWS := by
  unfold place_row ROWS
  omega

theorem winner_after_place {b b' : Connect4Board} {p : Colour} {c : Nat}
    (hd : dimsOK b) (hp : p ≠ Colour.EMPTY) (hc : c < COLUMNS)
    (h : place_chip b p c = .ok b') :
    (check_winner_from_last_move b' = p ↔
      ∃ l ∈ WINNING_LINES, (place_row b c, c) ∈ l ∧ ∀ q ∈ l, coordColour b' q = p) ∧
    (check_winner_from_last_move b' = Colour.EMPTY ↔
      ¬ ∃ l ∈ WINNING_LINES, (place_row b c, c) ∈ l ∧ ∀ q ∈ l, coordColour b' q = p) := by
  obtain ⟨-, -, hlast, -, -, -, -⟩ := place_chip_ok_fields hd.2.2.1 hc h
  have hcell := coordColour_place_self hd hc h
  have hguard : b'.last_move ≠ ((-1 : Int), (-1 : Int)) := by
    rw [hlast]
    intro hx
    rw [Prod.mk.injEq] at hx
    omega
  have hany : (((WINNING_LINES_BY_POSITION.getD (place_row b c) []).getD c []).any
      (line_matches_colour b' p) = true) ↔
      ∃ l ∈ WINNING_LINES, (place_row b c, c) ∈ l ∧ ∀ q ∈ l, coordColour b' q = p := by
    rw [table_lookup _ place_row_lt _ hc, List.any_eq_true]
    constructor
    · rintro ⟨l', hl', hmatch⟩
      obtain ⟨l, hmem, hin, rfl⟩ := mem_lines_for_positions.mp hl'
      obtain ⟨h4, hnd, -⟩ := winning_lines_wf l hmem
      have h3 : (l.erase (place_row b c, c)).length = 3 := by
        rw [List.length_erase_of_mem hin, h4]
      have herased := (line_matches_iff h3).mp hmatch
      refine ⟨l, hmem, hin, ?_⟩
      intro q hq
      rcases eq_or_ne q (place_row b c, c) with h1 | h1
      · rw [h1]; exact hcell
      · exact herased q ((List.mem_erase_of_ne h1).mpr hq)
    · rintro ⟨l, hmem, hin, hall⟩
      obtain ⟨h4, hnd, -⟩ := winning_lines_wf l hmem
      refine ⟨l.erase (place_row b c, c), mem_lines_for_positions.mpr ⟨l, hmem, hin, rfl⟩, ?_⟩
      have h3 : (l.erase (place_row b c, c)).length = 3 := by
        rw [List.length_erase_of_mem hin, h4]
      exact (line_matches_iff h3).mpr fun q hq => hall q (List.mem_of_mem_erase hq)
  have hform : check_winner_from_last_move b' =
      (if ((WINNING_LINES_BY_POSITION.getD (place_row b c) []).getD c []).any
          (line_matches_colour b' p) then p else Colour.EMPTY) := by
    unfold check_winner_from_last_move
    rw [if_neg hguard, hlast]
    have htn1 : (((place_row b c : Nat) : Int), (c : Int)).1.toNat = place_row b c := by
      simp
    have htn2 : (((place_row b c : Nat) : Int), (c : Int)).2.toNat = c := by
      simp
    rw [htn1, htn2]
    have hgc : get_colour_at_position b' (place_row b c) c = p := hcell
    simp only [hgc]
  constructor
  · rw [hform]
    split
    · rename_i hcond
      simp only [true_iff]
      exact hany.mp hcond
    · rename_i hcond
      constructor
      · intro hE
        exact absurd hE.symm hp
      · intro hx
        exact absurd (hany.mpr hx) hcond
  · rw [hform]
    split
    · rename_i hcond
      constructor
      · intro hE
        exact absurd hE hp
      · intro hx
        exact absurd (hany.mp hcond) hx
    · rename_i hcond
      simp only [true_iff]
      intro hx
      exact absurd (hany.mpr hx) hcond

theorem board_check_eq_empty_iff (b : Connect4Board) :
    check_winner_from_board b = Colour.EMPTY ↔
      ∀ l ∈ WINNING_LINES, line_complete b l = false := by
  unfold check_winner_from_board
  cases hf : WINNING_LINES.find? (line_complete b) with
  | none =>
    constructor
    · intro _ l hm
      simpa using List.find?_eq_none.mp hf l hm
    · intro _
      rfl
  | some l =>
    have hpl := List.find?_some hf
    have hmem := List.mem_of_find?_eq_some hf
    have h4 := (winning_lines_wf l hmem).1
    have hne := ((line_complete_iff h4).mp hpl).1
    constructor
    · intro hE
      exact absurd hE hne
    · intro hall
      exact absurd hpl (by rw [hall l hmem]; simp)

theorem complete_after_place {b b' : Connect4Board} {p : Colour} {c : Nat}
    (hd : dimsOK b) (hc : c < COLUMNS)
    (hnowin : check_winner_from_board b = Colour.EMPTY)
    (h : place_chip b p c = .ok b') {l : List (Nat × Nat)}
    (hmem : l ∈ WINNING_LINES) (hcomp : line_complete b' l = true) :
    (place_row b c, c) ∈ l ∧ ∀ q ∈ l, coordColour b' q = p := by
  obtain ⟨h4, hnd, hrange⟩ := winning_lines_wf l hmem
  by_cases hin : (place_row b c, c) ∈ l
  · obtain ⟨hne, hall⟩ := (line_complete_iff h4).mp hcomp
    have hc0 : coordColour b' (place_row b c, c) =
        coordColour b' (l.getD 0 (0, 0)) := hall _ hin
    have hcell := coordColour_place_self hd hc h
    refine ⟨hin, fun q hq => ?_⟩
    rw [hall q hq, ← hc0, hcell]
  · exfalso
    have hsame : ∀ q ∈ l, coordColour b' q = coordColour b q := fun q hq =>
      coordColour_place_ne hd hc h (fun he => hin (he ▸ hq))
    rw [line_complete_congr h4 hsame] at hcomp
    have hfalse := (board_check_eq_empty_iff b).mp hnowin l hmem
    rw [hfalse] at hcomp
    cases hcomp

theorem checks_agree_place {b b' : Connect4Board} {p : Colour} {c : Nat}
    (hd : dimsOK b) (hp : p ≠ Colour.EMPTY) (hc : c < COLUMNS)
    (hnowin : check_winner_from_board b = Colour.EMPTY)
    (h : place_chip b p c = .ok b') :
    check_winner_from_last_move b' = check_winner_from_board b' := by
  obtain ⟨hiffp, hiffE⟩ := winner_after_place hd hp hc h
  by_cases hW : ∃ l ∈ WINNING_LINES, (place_row b c, c) ∈ l ∧ ∀ q ∈ l, coordColour b' q = p
  · rw [hiffp.mpr hW]
    obtain ⟨lw, hmemw, hinw, hallw⟩ := hW
    obtain ⟨h4w, -, -⟩ := winning_lines_wf lw hmemw
    have hcompw : line_complete b' lw = true := by
      apply (line_complete_iff h4w).mpr
      have h0 : coordColour b' (lw.getD 0 (0, 0)) = p := hallw _ (getD_mem (by omega) _)
      rw [h0]
      exact ⟨hp, hallw⟩
    cases hf : WINNING_LINES.find? (line_complete b') with
    | none =>
      exact absurd hcompw (by simpa using List.find?_eq_none.mp hf lw hmemw)
    | some l0 =>
      have hpl := List.find?_some hf
      have hmem0 := List.mem_of_find?_eq_some hf
      obtain ⟨hin0, hall0⟩ := complete_after_place hd hc hnowin h hmem0 hpl
      obtain ⟨h40, -, -⟩ := winning_lines_wf l0 hmem0
      have hres : check_winner_from_board b' = coordColour b' (l0.getD 0 (0, 0)) := by
        unfold check_winner_from_board
        rw [hf]
      rw [hres]
      exact (hall0 _ (getD_mem (by omega) _)).symm
  · rw [hiffE.mpr hW]
    symm
    rw [board_check_eq_empty_iff]
    intro l hmem
    by_contra hcomp
    rw [Bool.not_eq_false] at hcomp
    obtain ⟨hin, hall⟩ := complete_after_place hd hc hnowin h hmem hcomp
    exact hW ⟨l, hmem, hin, hall⟩

theorem ReachableNoWin.toReachable {b : Connect4Board} (h : ReachableNoWin b) :
    Reachable b := by
  induction h with
  | empty => exact .empty
  | step rb hw hp hc hok ih => exact .step ih hp hc hok

theorem reachableNoWin_winner_and_agree {b : Connect4Board} (h : ReachableNoWin b) :
    b.winner = check_winner_from_last_move b ∧
    check_winner_from_last_move b = check_winner_from_board b := by
  induction h with
  | empty => exact ⟨by decide, by decide⟩
  | @step b0 b1 p c rb hw hp hc hok ih =>
    have hd := reachable_dimsOK rb.toReachable
    have hnowin : check_winner_from_board b0 = Colour.EMPTY := by
      rw [← ih.2, ← ih.1]
      exact hw
    obtain ⟨-, -, -, hwin, -, -, -⟩ := place_chip_ok_fields hd.2.2.1 hc hok
    exact ⟨hwin, checks_agree_place hd hp hc hnowin hok⟩

theorem reachable_foldl {ms : List (Colour × Nat)} :
    ∀ {b : Connect4Board}, Reachable b → legalFrom b ms = true →
      Reachable (ms.foldl (fun b m => placeD b m.1 m.2) b) := by
  induction ms with
  | nil =>
    intro b hb _
    simpa using hb
  | cons m ms ih =>
    intro b hb hleg
    simp only [legalFrom, Bool.and_eq_true, decide_eq_true_eq] at hleg
    obtain ⟨⟨⟨hp, hc⟩, hok⟩, hrest⟩ := hleg
    have hstep : Reachable (placeD b m.1 m.2) := by
      cases hx : place_chip b m.1 m.2 with
      | ok b' =>
        unfold placeD
        rw [hx]
        exact .step hb hp hc hx
      | error e =>
        rw [hx] at hok
        cases hok
    simpa using ih hstep hrest

theorem reachable_seqBoard {ms : List (Colour × Nat)}
    (h : legalFrom emptyBoard ms = true) : Reachable (seqBoard ms) :=
  reachable_foldl .empty h

theorem reachableNoWin_foldl {ms : List (Colour × Nat)} :
    ∀ {b : Connect4Board}, ReachableNoWin b → legalFromNW b ms = true →
      ReachableNoWin (ms.foldl (fun b m => placeD b m.1 m.2) b) := by
  induction ms with
  | nil =>
    intro b hb _
    simpa using hb
  | cons m ms ih =>
    intro b hb hleg
    simp only [legalFromNW, Bool.and_eq_true, decide_eq_true_eq] at hleg
    obtain ⟨⟨⟨⟨hw, hp⟩, hc⟩, hok⟩, hrest⟩ := hleg
    have hstep : ReachableNoWin (placeD b m.1 m.2) := by
      cases hx : place_chip b m.1 m.2 with
      | ok b' =>
        unfold placeD
        rw [hx]
        exact .step hb hw hp hc hx
      | error e =>
        rw [hx] at hok
        cases hok
    simpa using ih hstep hrest

theorem reachableNoWin_seqBoard {ms : List (Colour × Nat)}
    (h : legalFromNW emptyBoard ms = true) : ReachableNoWin (seqBoard ms) :=
  reachableNoWin_foldl .empty h

/-- C1 (corrected): `place_chip` recomputes `winner` from scratch via
`check_winner_from_last_move`, so after a further legal placement on a won
board the winner is either the newly placed colour or `EMPTY` — it is `EMPTY`
exactly when no stored winning line through the newly placed cell is filled
with the placed colour.  The first winner is not sticky. -/
theorem winner_recomputed_not_sticky (b : Connect4Board) (p : Colour) (c : Nat)
    (b' : Connect4Board) (hr : Reachable b) (_hw : b.winner ≠ Colour.EMPTY)
    (hp : p ≠ Colour.EMPTY) (hc : c < COLUMNS) (h : place_chip b p c = .ok b') :
    (b'.winner = p ∨ b'.winner = Colour.EMPTY) ∧
    (b'.winner = Colour.EMPTY ↔
      ¬ ∃ l ∈ WINNING_LINES, (place_row b c, c) ∈ l ∧ ∀ q ∈ l, coordColour b' q = p) := by
  have hd := reachable_dimsOK hr
  obtain ⟨-, -, -, hwin, -, -, -⟩ := place_chip_ok_fields hd.2.2.1 hc h
  obtain ⟨h1, h2⟩ := winner_after_place hd hp hc h
  rw [hwin]
  constructor
  · by_cases hx : ∃ l ∈ WINNING_LINES, (place_row b c, c) ∈ l ∧ ∀ q ∈ l, coordColour b' q = p
    · exact Or.inl (h1.mpr hx)
    · exact Or.inr (h2.mpr hx)
  · exact h2

/-- C1 counterexample: `wonBoard` is reachable with winner RED; the further
legal placement of YELLOW in column 5 succeeds and resets `winner` to `EMPTY`,
so the claimed stickiness fails. -/
theorem winner_reset_by_further_placement :
    Reachable wonBoard ∧ wonBoard.winner = Colour.RED ∧
    place_chip wonBoard Colour.YELLOW 5 = .ok afterWinBoard ∧
    afterWinBoard.winner = Colour.EMPTY := by
  refine ⟨reachable_seqBoard (by decide), by decide, by decide, by decide⟩

/-- C1 witness: the corrected statement instantiated at `wonBoard` with
YELLOW placing in column 5. -/
theorem winner_recomputed_not_sticky_witness :
    Reachable wonBoard ∧ wonBoard.winner ≠ Colour.EMPTY ∧
    ((afterWinBoard.winner = Colour.YELLOW ∨ afterWinBoard.winner = Colour.EMPTY) ∧
      (afterWinBoard.winner = Colour.EMPTY ↔
        ¬ ∃ l ∈ WINNING_LINES, (place_row wonBoard 5, 5) ∈ l ∧
          ∀ q ∈ l, coordColour afterWinBoard q = Colour.YELLOW)) := by
  have hr : Reachable wonBoard := reachable_seqBoard (by decide)
  exact ⟨hr, by decide,
    winner_recomputed_not_sticky wonBoard Colour.YELLOW 5 afterWinBoard hr
      (by decide) (by decide) (by decide) (by decide)⟩

/-- C2 (corrected): the incremental check and the full scan agree on every
board reachable by legal placements each made while the board had no recorded
winner, i.e. on all positions that arise in an actual game. -/
theorem checks_agree_of_reachableNoWin (b : Connect4Board) (h : ReachableNoWin b) :
    check_winner_from_last_move b = check_winner_from_board b :=
  (reachableNoWin_winner_and_agree h).2

/-- C2 counterexample: after RED has already won, one more legal placement
(YELLOW in column 4) produces a reachable board on which the incremental
check returns `EMPTY` while the full scan still sees RED's line. -/
theorem checks_disagree_on_reachable_board :
    Reachable disagreeBoard ∧
    check_winner_from_last_move disagreeBoard = Colour.EMPTY ∧
    check_winner_from_board disagreeBoard = Colour.RED := by
  refine ⟨?_, by decide, by decide⟩
  exact @reachable_seqBoard [(Colour.RED, 0), (Colour.YELLOW, 6), (Colour.RED, 1),
    (Colour.YELLOW, 6), (Colour.RED, 2), (Colour.YELLOW, 6), (Colour.RED, 3),
    (Colour.YELLOW, 4)] (by decide)

/-- C2 witness: the corrected statement instantiated at the in-game reachable
board `threeRowBoard`. -/
theorem checks_agree_of_reachableNoWin_witness :
    ReachableNoWin threeRowBoard ∧
    check_winner_from_last_move threeRowBoard = check_winner_from_board threeRowBoard := by
  have hr : ReachableNoWin threeRowBoard := reachableNoWin_seqBoard (by decide)
  exact ⟨hr, checks_agree_of_reachableNoWin threeRowBoard hr⟩

/-- C7: placing into an in-range column that is not open (its height is
already 6 on a reachable board) raises the illegal-move `ValueError` before
any state is touched; in this pure embedding the error result returns no new
board, so the caller's board is exactly as before the call. -/
theorem place_chip_full_column_rejected (b : Connect4Board) (p : Colour) (c : Nat)
    (hr : Reachable b) (hc : c < COLUMNS) (hfull : move_available b c = false) :
    place_chip b p c = .error ("Tried to place chip in full column " ++ toString c) := by
  have hinv := reachable_boardInv hr
  have hge : ROWS ≤ b.column_chip_count.getD c 0 := by
    by_contra hlt
    have htrue := (hinv.2.2 c hc).mpr (by omega)
    rw [hfull] at htrue
    cases htrue
  exact place_chip_eq_error hge

/-- C7 witness: column 0 of `fullColBoard` holds six chips; the placement
attempt is rejected with the illegal-move error. -/
theorem place_chip_full_column_rejected_witness :
    Reachable fullColBoard ∧ 0 < COLUMNS ∧ move_available fullColBoard 0 = false ∧
    place_chip fullColBoard Colour.RED 0 =
      .error ("Tried to place chip in full column " ++ toString 0) := by
  have hr : Reachable fullColBoard := reachable_seqBoard (by decide)
  exact ⟨hr, by decide, by decide,
    place_chip_full_column_rejected fullColBoard Colour.RED 0 hr (by decide) (by decide)⟩

/-- C8: on every reachable board, `moves_made` is the sum of the column chip
counts, every count is at most 6, and a column is open for `move_available`
exactly when its count is below 6.  The induction over `Reachable` is the
preservation of this invariant by every successful `place_chip` call. -/
theorem reachable_moves_heights_invariant (b : Connect4Board) (h : Reachable b) :
    b.moves_made = b.column_chip_count.sum ∧
    (∀ c, c < COLUMNS → b.column_chip_count.getD c 0 ≤ ROWS) ∧
    (∀ c, c < COLUMNS → (move_available b c = true ↔
      b.column_chip_count.getD c 0 < ROWS)) :=
  reachable_boardInv h

/-- C8 witness: the invariant instantiated at the reachable board
`minimaxWinBoard`. -/
theorem reachable_moves_heights_invariant_witness :
    Reachable minimaxWinBoard ∧
    (minimaxWinBoard.moves_made = minimaxWinBoard.column_chip_count.sum ∧
      (∀ c, c < COLUMNS → minimaxWinBoard.column_chip_count.getD c 0 ≤ ROWS) ∧
      (∀ c, c < COLUMNS → (move_available minimaxWinBoard c = true ↔
        minimaxWinBoard.column_chip_count.getD c 0 < ROWS))) := by
  have hr : Reachable minimaxWinBoard := reachable_seqBoard (by decide)
  exact ⟨hr, reachable_moves_heights_invariant minimaxWinBoard hr⟩

/-- C10: the deep copy preserves the grid, the chip counts, the move count,
the last move and the availability flags of any board, but its `winner` field
is `EMPTY` (the copy goes through `__init__`), even when the source board's
winner is a player colour; only a subsequent `place_chip` on the copy writes
`winner` again. -/
theorem deepcopy_preserves_data_resets_winner (b : Connect4Board) :
    (deepcopy b).board = b.board ∧
    (deepcopy b).column_chip_count = b.column_chip_count ∧
    (deepcopy b).moves_made = b.moves_made ∧
    (deepcopy b).last_move = b.last_move ∧
    (deepcopy b).available_moves = b.available_moves ∧
    (deepcopy b).winner = Colour.EMPTY :=
  ⟨rfl, rfl, rfl, rfl, rfl, rfl⟩

/-- C3 (code bug): the generated geometry for the fixed 6-row by 7-column
board has 24 horizontal, 21 vertical and 12 falling-diagonal lines, but only
8 rising-diagonal lines — 65 in total, not the 69 the spec requires — because
the rising-diagonal loop starts at row 4 instead of row 3.  The four rising
diagonals that end in the top row, such as [(3,0), (2,1), (1,2), (0,3)], are
missing, so wins along them are never detected. -/
theorem generate_winning_lines_counts :
    horizontal_lines.length = 24 ∧ vertical_lines.length = 21 ∧
    diagonal_falling_lines.length = 12 ∧ diagonal_rising_lines.length = 8 ∧
    generate_winning_lines.length = 65 ∧
    [(3, 0), (2, 1), (1, 2), (0, 3)] ∉ generate_winning_lines := by
  refine ⟨by decide, by decide, by decide, by decide, by decide, by decide⟩

/-- C4 (code bug): on `minimaxWinBoard` RED to move wins immediately in
column 3 (placing there yields winner RED), yet the depth-1 minimax vector is
all zeros — `solve_minimax` recurses into the opponent's replies without ever
checking the winner of the board it just placed on, the clone's `__init__`
resets `winner`, and the incremental check at the opponent's reply cell does
not see RED's completed line.  The claimed value +1 at column 3 is not
produced. -/
theorem solve_minimax_depth1_misses_immediate_win :
    move_available minimaxWinBoard 3 = true ∧
    (placeD (deepcopy minimaxWinBoard) Colour.RED 3).winner = Colour.RED ∧
    solve_minimax minimaxWinBoard Colour.RED 1 =
      .ok [.val 0, .val 0, .val 0, .val 0, .val 0, .val 0, .val 0] := by
  refine ⟨by decide, by decide, by decide⟩

/-- C5 (code bug): the child loop of `place_chip_recursive` runs
`while col < COLUMNS and move_available(col)`, so it stops at the first full
column instead of skipping it.  On `fullColBoard` column 0 is full while
column 4 is an open, immediately winning column for RED; the recursion at the
configured depth evaluates no child at all and returns 0. -/
theorem place_chip_recursive_stops_at_full_column :
    move_available fullColBoard 0 = false ∧
    move_available fullColBoard 4 = true ∧
    wins_immediately fullColBoard Colour.RED 4 = true ∧
    place_chip_recursive fullColBoard Colour.RED DEPTH = .ok 0 := by
  refine ⟨by decide, by decide, by decide, by decide⟩

/-- C6 counterexample: `place_chip` with column index -1 is not rejected and
does mutate the board: from the empty board it returns normally, the chip
lands in column 6 of the bottom row (Python negative indexing), and the move
count and last move change. -/
theorem place_chip_negative_index_not_rejected :
    place_chipPy emptyBoardPy Colour.RED (-1) = .ok c6Result ∧
    c6Result ≠ emptyBoardPy ∧
    get_colour_at_positionPy c6Result 5 6 = .ok Colour.RED ∧
    c6Result.moves_made = 1 := by
  refine ⟨by decide, by decide, by decide, by decide⟩

/-- C6 (corrected): the core performs no range check of its own (the console
caller validates `0 <= column < 7` before calling).  An index greater than 6
raises an uncaught `IndexError` — in `move_available` at the list read, in
`place_chip` at the grid write, which precedes every mutation.  A negative
index such as -1 is not rejected at all: `move_available` reports column 6's
availability, and `place_chip` writes the chip into row 5 of column 6, counts
it under the `Counter` key -1 (leaving the key 6 untouched), records
`last_move = (5, -1)`, increments `moves_made`, and returns normally. -/
theorem out_of_range_column_python_behaviour :
    move_availablePy emptyBoardPy 7 = .error "IndexError" ∧
    place_chipPy emptyBoardPy Colour.RED 7 = .error "IndexError" ∧
    move_availablePy emptyBoardPy (-1) = .ok true ∧
    place_chipPy emptyBoardPy Colour.RED (-1) = .ok c6Result ∧
    get_colour_at_positionPy c6Result 5 6 = .ok Colour.RED ∧
    counterGet c6Result.column_chip_count (-1) = 1 ∧
    counterGet c6Result.column_chip_count 6 = 0 ∧
    c6Result.last_move = (5, -1) ∧
    c6Result.moves_made = 1 := by
  refine ⟨by decide, by decide, by decide, by decide, by decide, by decide, by decide,
    by decide, by decide⟩

theorem solveNaiveLoop_spec (b : Connect4Board) (p : Colour)
    (hplace : open_columns_placeable b) :
    ∀ n col, col + n = COLUMNS →
      ((∃ c, col ≤ c ∧ c < COLUMNS ∧
          solveNaiveLoop b p (List.range' col n) = .ok (c : Int) ∧
          move_available b c = true ∧ wins_immediately b p c = true ∧
          ∀ c', col ≤ c' → c' < c → move_available b c' = true →
            wins_immediately b p c' = false) ∨
        (solveNaiveLoop b p (List.range' col n) = .ok (-1) ∧
          ∀ c, col ≤ c → c < COLUMNS → move_available b c = true →
            wins_immediately b p c = false)) := by
  intro n
  induction n with
  | zero =>
    intro col hcol
    right
    refine ⟨rfl, ?_⟩
    intro c h1 h2 _
    omega
  | succ n ih =>
    intro col hcol
    rw [List.range'_succ]
    simp only [solveNaiveLoop]
    by_cases hav : move_available b col = true
    · rw [if_pos hav]
      have hcnt : b.column_chip_count.getD col 0 < ROWS := hplace col (by omega) hav
      have hok : (place_chip (deepcopy b) p col).isOk = true :=
        place_chip_isOk_of_lt hcnt
      cases hx : place_chip (deepcopy b) p col with
      | error e =>
        rw [hx] at hok
        exact Bool.noConfusion hok
      | ok nb =>
        simp only [hx]
        by_cases hwin : nb.winner ≠ Colour.EMPTY
        · rw [if_pos hwin]
          left
          refine ⟨col, Nat.le_refl _, by omega, rfl, hav, ?_, ?_⟩
          · unfold wins_immediately
            rw [hx]
            simp [hwin]
          · intro c' hh1 hh2 _
            omega
        · rw [if_neg hwin]
          have hwinf : wins_immediately b p col = false := by
            unfold wins_immediately
            rw [hx]
            simp only [not_not] at hwin
            simp [hwin]
          rcases ih (col + 1) (by omega) with ⟨c, hc1, hc2, heq, hava, hwa, hmin⟩ |
            ⟨heq, hnone⟩
          · left
            refine ⟨c, by omega, hc2, heq, hava, hwa, ?_⟩
            intro c' hh1 hh2 hh3
            rcases Nat.lt_or_ge c' (col + 1) with hlt | hge
            · have hce : c' = col := by omega
              rw [hce]
              exact hwinf
            · exact hmin c' hge hh2 hh3
          · right
            refine ⟨heq, ?_⟩
            intro c hh1 hh2 hh3
            rcases Nat.lt_or_ge c (col + 1) with hlt | hge
            · have hce : c = col := by omega
              rw [hce]
              exact hwinf
            · exact hnone c hge hh2 hh3
    · rw [if_neg hav]
      have havf : move_available b col = false := by
        cases hvv : move_available b col
        · rfl
        · exact absurd hvv hav
      rcases ih (col + 1) (by omega) with ⟨c, hc1, hc2, heq, hava, hwa, hmin⟩ |
        ⟨heq, hnone⟩
      · left
        refine ⟨c, by omega, hc2, heq, hava, hwa, ?_⟩
        intro c' hh1 hh2 hh3
        rcases Nat.lt_or_ge c' (col + 1) with hlt | hge
        · have hce : c' = col := by omega
          rw [hce, havf] at hh3
          cases hh3
        · exact hmin c' hge hh2 hh3
      · right
        refine ⟨heq, ?_⟩
        intro c hh1 hh2 hh3
        rcases Nat.lt_or_ge c (col + 1) with hlt | hge
        · have hce : c = col := by omega
          rw [hce, havf] at hh3
          cases hh3
        · exact hnone c hge hh2 hh3

/-- C9: for every board whose open columns can be placed into, `solveNaive`
returns the smallest open column whose hypothetical placement wins
immediately, and -1 when no open column wins; and on `threeRowBoard` (three
RED chips horizontally adjacent with both ends open) it returns one of the two
completing columns, 1 or 5. -/
theorem solveNaive_returns_first_winning_column :
    (∀ b p, open_columns_placeable b →
      ((∃ c, c < COLUMNS ∧ solveNaive b p = .ok (c : Int) ∧
          move_available b c = true ∧ wins_immediately b p c = true ∧
          ∀ c', c' < c → move_available b c' = true →
            wins_immediately b p c' = false) ∨
        (solveNaive b p = .ok (-1) ∧
          ∀ c, c < COLUMNS → move_available b c = true →
            wins_immediately b p c = false))) ∧
    (solveNaive threeRowBoard Colour.RED = .ok 1 ∨
      solveNaive threeRowBoard Colour.RED = .ok 5) := by
  constructor
  · intro b p hp
    have hspec := solveNaiveLoop_spec b p hp COLUMNS 0 (by omega)
    have hrw : List.range' 0 COLUMNS = List.range COLUMNS :=
      (List.range_eq_range' COLUMNS).symm
    rw [hrw] at hspec
    rcases hspec with ⟨c, -, hc2, heq, hav, hw, hmin⟩ | ⟨heq, hnone⟩
    · left
      exact ⟨c, hc2, heq, hav, hw, fun c' h1 h2 => hmin c' (Nat.zero_le _) h1 h2⟩
    · right
      exact ⟨heq, fun c h1 h2 => hnone c (Nat.zero_le _) h1 h2⟩
  · left
    decide

/-- C9 witness: the characterization instantiated at `threeRowBoard` for RED. -/
theorem solveNaive_returns_first_winning_column_witness :
    open_columns_placeable threeRowBoard ∧
    ((∃ c, c < COLUMNS ∧ solveNaive threeRowBoard Colour.RED = .ok (c : Int) ∧
        move_available threeRowBoard c = true ∧
        wins_immediately threeRowBoard Colour.RED c = true ∧
        ∀ c', c' < c → move_available threeRowBoard c' = true →
          wins_immediately threeRowBoard Colour.RED c' = false) ∨
      (solveNaive threeRowBoard Colour.RED = .ok (-1) ∧
        ∀ c, c < COLUMNS → move_available threeRowBoard c = true →
          wins_immediately threeRowBoard Colour.RED c = false)) := by
  have hp : open_columns_placeable threeRowBoard := by
    unfold open_columns_placeable
    decide
  exact ⟨hp, solveNaive_returns_first_winning_column.1 threeRowBoard Colour.RED hp⟩
